import Mathlib

/-!
Verification development for the curifactory experiment-orchestration core:
the parameter hashing algorithm, the cache short-circuiting protocol of the
stage wrapper, the aggregate input resolution, and the two-phase DAG planner.
The Python implementation is not part of this source tree (only its
documentation is), so every definition below is modelled from the
specification text, faithful to its wording.
-/

namespace Curifactory

/-- Modelled from the spec: a registered hash-representation override for one
field. The Python override is an arbitrary user function called with the whole
parameter set and the field value; user functions are external to the
repository, so an override here is either the `ignore` marker (a `None` entry
in `hash_representations`) or the string the override function returns for the
the current value of the field. -/
inductive HashOverride where
  | ignore : HashOverride
  | represent (s : String) : HashOverride
deriving DecidableEq

/-- Modelled from the spec: the closed tagged union of field-value categories
the hashing mechanism distinguishes (the design notes of the spec call for exactly
such a small closed union): an absent (`None`) value, a callable carrying its
fully-qualified name, a nested dataclass carrying its own fields and override
table, or any other value carrying its `repr` string. -/
inductive FieldValue where
  | absent : FieldValue
  | callable (qualname : String) : FieldValue
  | nested (fields : List (String × FieldValue))
      (overrides : List (String × HashOverride)) : FieldValue
  | prim (rep : String) : FieldValue

/-- Discriminator for the absent (`None`) field value. -/
def FieldValue.isAbsent : FieldValue → Bool
  | .absent => true
  | _ => false

/-- Modelled from the spec: the bookkeeping fields always excluded from the
hash. -/
def PARAMETERS_BLACKLIST : List String :=
  ["name", "hash", "overwrite", "hash_representations"]

/-- Look up the registered override for a field, if any. -/
def lookupOverride (ov : List (String × HashOverride)) (field : String) :
    Option HashOverride :=
  (ov.find? (fun p => p.1 == field)).map (fun p => p.2)

/-- Render one (strategy, representation-or-skip) pair as a string, used when
building the composite representation of a nested dataclass. -/
def hashValueRepr : String × Option String → String
  | (strat, some s) => "(" ++ strat ++ ", " ++ s ++ ")"
  | (strat, none) => "(" ++ strat ++ ", skipped)"

/-- Render the dry hash-value dictionary of a nested dataclass as a composite
string, the representation used for a recursed-into dataclass field. -/
def compositeRepr (l : List (String × (String × Option String))) : String :=
  "[" ++ String.intercalate "; "
    (l.map (fun p => p.1 ++ ": " ++ hashValueRepr p.2)) ++ "]"

mutual
/-- Modelled from the spec: determine the hash representation of one field by
the first applicable mechanism, in order: (1) skip blacklisted bookkeeping
fields; (2) skip absent values; (3) use a registered override (or skip when the
registered entry is the ignore marker); (4) recurse into a nested dataclass and
use the composite string; (5) use the fully-qualified name of a callable;
(6) otherwise use the default `repr`. Returns the strategy used and the
representation (`none` when skipped). -/
def get_parameter_hash_value (ov : List (String × HashOverride))
    (field : String) (v : FieldValue) : String × Option String :=
  if field ∈ PARAMETERS_BLACKLIST then ("skipped-blacklisted", none)
  else
    match v, lookupOverride ov field with
    | .absent, _ => ("skipped-none", none)
    | _, some .ignore => ("skipped-override-ignore", none)
    | _, some (.represent s) => ("hash-override", some s)
    | .nested fs ov2, none =>
        ("recursive-dataclass", some (compositeRepr (fields_hash_values ov2 fs)))
    | .callable q, none => ("callable-qualname", some q)
    | .prim r, none => ("repr", some r)
termination_by sizeOf v

/-- Modelled from the spec: collect the hash representation of every field of a
field list, each computed independently by `get_parameter_hash_value`. -/
def fields_hash_values (ov : List (String × HashOverride))
    (fs : List (String × FieldValue)) :
    List (String × (String × Option String)) :=
  match fs with
  | [] => []
  | (n, v) :: rest =>
      (n, get_parameter_hash_value ov n v) :: fields_hash_values ov rest
termination_by sizeOf fs
end

/-- Modelled from the spec: a ParameterSet is a named record of configuration
values with a mutable `name`, an `overwrite` flag, a per-field override table
`hash_representations`, and a lazily computed, memoized `fingerprint`. -/
structure ParameterSet where
  name : String
  overwrite : Bool
  fields : List (String × FieldValue)
  hash_representations : List (String × HashOverride)
  fingerprint : Option String

/-- Modelled from the spec: the dry-mode dictionary of
(field, (strategy, representation-or-skip)) pairs for a parameter set. -/
def get_param_set_hash_values (ps : ParameterSet) :
    List (String × (String × Option String)) :=
  fields_hash_values ps.hash_representations ps.fields

/-- Modelled from the spec: The Python `hashlib.md5` is external to this
repository; it is modelled as a fixed-width (128-bit) digest of the
representation string, applied independently per field. The spec fixes only
that the digest is fixed-size and applied to each field independently. -/
def md5Int (s : String) : Nat :=
  s.data.foldl (fun acc c => (acc * 65599 + c.toNat + 1) % (2 ^ 128))
    88172645463325252 % (2 ^ 128)

/-- Render a natural number as a hexadecimal string. -/
def toHex (n : Nat) : String := String.mk (Nat.toDigits 16 n)

/-- Modelled from the spec: combine the per-field representations into the
final fingerprint by digesting each non-skipped representation independently,
summing the integer digest values (commutative addition makes the result
insensitive to field order), and rendering the sum as a hex string. -/
def compute_hash (hash_values : List (String × (String × Option String))) :
    String :=
  toHex (((hash_values.filterMap (fun x => x.2.2)).map md5Int).sum)

/-- Modelled from the spec: hash a parameter set, memoizing the fingerprint on
the instance: when `fingerprint` is already present it is returned unchanged
and nothing is recomputed; otherwise the hash is computed and stored. -/
def hash_param_set (ps : ParameterSet) : String × ParameterSet :=
  match ps.fingerprint with
  | some h => (h, ps)
  | none =>
      let h := compute_hash (get_param_set_hash_values ps)
      (h, { ps with fingerprint := some h })

/-- Modelled from the spec: mutate one field of a parameter set in place,
leaving every other attribute (in particular the memoized fingerprint)
untouched. -/
def set_field (ps : ParameterSet) (field : String) (v : FieldValue) :
    ParameterSet :=
  { ps with
    fields := ps.fields.map (fun f => if f.1 = field then (field, v) else f) }

/-! ### Stage wrapper and cache gateway -/

/-- Modelled from the spec: a cache key is (parameter hash, stage name,
artifact name); the experiment-name component is a fixed outer namespace and is
omitted here. -/
abbrev CacheKey := String × String × String

/-- Modelled from the spec: the cache gateway as an association list from keys
to stored values, most recent first. -/
abbrev Cache (α : Type) := List (CacheKey × α)

/-- Look up a cache entry without loading anything else. -/
def cacheLookup (cache : Cache α) (k : CacheKey) : Option α :=
  (cache.find? (fun e => decide (e.1 = k))).map (fun e => e.2)

/-- Look up an artifact in a record state (association list, most recent
write first). -/
def stateLookup (st : List (String × α)) (k : String) : Option α :=
  (st.find? (fun e => decide (e.1 = k))).map (fun e => e.2)

/-- Modelled from the spec: a stage descriptor after declaration: its name,
declared outputs, whether caching strategies are assigned (all-or-nothing, so
one flag), and the wrapped function body, which maps the record state to the
list of returned output values. -/
structure StageDef (α : Type) where
  name : String
  outputs : List String
  hasCachers : Bool
  body : List (String × α) → List α

/-- Modelled from the spec: the working record a stage mutates: an identity,
the parameter hash it is keyed by, the artifact state, and the direct output of
the last stage run on it. -/
structure Record (α : Type) where
  rid : Nat
  hash : String
  state : List (String × α)
  output : Option (List α)

/-- Result of one stage invocation: the (mutated) record, the cache after the
invocation, and whether the wrapped function body actually executed. -/
structure StageRunResult (α : Type) where
  record : Record α
  cache : Cache α
  executed : Bool

/-- Modelled from the spec: one stage invocation. If cachers are declared,
overwrite is not requested, and every declared output has a cache entry for the
hash of the record, execution is skipped and all outputs are loaded from cache into
the record state; otherwise the wrapped body runs, its returned values are
committed to the state under the declared output names and, when cachers are
declared, saved to the cache. Either way the record itself is returned,
mutated, with `output` holding the direct function output. -/
def runStage (sd : StageDef α) (overwrite : Bool) (r : Record α)
    (cache : Cache α) : StageRunResult α :=
  if sd.hasCachers && !overwrite &&
      sd.outputs.all (fun o => (cacheLookup cache (r.hash, sd.name, o)).isSome)
  then
    let loaded := sd.outputs.filterMap
      (fun o => (cacheLookup cache (r.hash, sd.name, o)).map (fun v => (o, v)))
    { record := { r with state := loaded ++ r.state,
                         output := some (loaded.map (fun p => p.2)) },
      cache := cache, executed := false }
  else
    let vals := sd.body r.state
    let committed := sd.outputs.zip vals
    let saves := if sd.hasCachers
      then committed.map (fun p => ((r.hash, sd.name, p.1), p.2)) else []
    { record := { r with state := committed ++ r.state, output := some vals },
      cache := saves ++ cache, executed := true }

/-! ### Stage declaration-time configuration checks -/

/-- Modelled from the spec: configuration errors raised at stage-definition
time. -/
inductive ConfigError where
  | cachersOutputsMismatch (ncachers nouts : Nat) : ConfigError
deriving DecidableEq

/-- Modelled from the spec: a declared stage descriptor as produced by the
decorator: name, declared inputs and outputs, cacher assignments (one cacher
per output, named by its strategy). -/
structure StageDecl where
  name : String
  inputs : List String
  outputs : List String
  cachers : Option (List String)
deriving DecidableEq

/-- Modelled from the spec: stage declaration. If cachers are declared, every
output must have one assigned; a cachers list whose length differs from the
outputs list raises a configuration error at declaration time, before any
execution. -/
def defineStage (name : String) (ins outs : List String)
    (cachers : Option (List String)) : Except ConfigError StageDecl :=
  match cachers with
  | some cs =>
      if cs.length ≠ outs.length
      then .error (.cachersOutputsMismatch cs.length outs.length)
      else .ok ⟨name, ins, outs, some cs⟩
  | none => .ok ⟨name, ins, outs, none⟩

/-! ### Stage input resolution -/

/-- Modelled from the spec: the distinguishable missing-input error (a
`KeyError` in Python). -/
inductive InputError where
  | missingKey (inputName : String) : InputError
deriving DecidableEq

/-- Modelled from the spec: resolution of one declared input of a stage. An
explicitly passed keyword always wins; otherwise the value is looked up in the
record state; if absent there and the stage suppresses missing inputs, the
own default of the wrapped function for that argument is used; otherwise the
missing-input error is raised. -/
def resolveInput (state kwargs : List (String × α))
    (suppressMissing : Bool) (defaults : String → Option α)
    (inputName : String) : Except InputError α :=
  match stateLookup kwargs inputName with
  | some v => .ok v
  | none =>
    match stateLookup state inputName with
    | some v => .ok v
    | none =>
      if suppressMissing then
        match defaults inputName with
        | some d => .ok d
        | none => .error (.missingKey inputName)
      else .error (.missingKey inputName)

/-! ### Aggregate input resolution -/

/-- Modelled from the spec: a contributing record as seen by an aggregate:
its identity and its artifact state. -/
structure ContribRecord (α : Type) where
  rid : Nat
  state : List (String × α)
deriving DecidableEq

/-- Modelled from the spec: populate one declared input of an aggregate stage:
a dictionary keyed by exactly the contributing records whose state holds the
artifact, mapping each to its value; records lacking the artifact are simply
omitted. -/
def aggregateInput (records : List (ContribRecord α)) (inputName : String) :
    List (ContribRecord α × α) :=
  records.filterMap
    (fun r => (stateLookup r.state inputName).map (fun v => (r, v)))

/-- Modelled from the spec: the records that produce a (non-fatal) warning for
a declared aggregate input: exactly those lacking the artifact. -/
def aggregateWarnings (records : List (ContribRecord α)) (inputName : String) :
    List Nat :=
  (records.filter (fun r => (stateLookup r.state inputName).isNone)).map
    (fun r => r.rid)

/-! ### Run planner / DAG -/

/-- Modelled from the spec: one mapped stage call as recorded by phase 1, in
orchestration order: a stage identity, the artifact names it consumes and
produces, whether all its outputs were found cached, and whether an explicit
overwrite was requested for it. -/
structure StageCall where
  sid : Nat
  inputs : List String
  outputs : List String
  cached : Bool
  overwrite : Bool
deriving DecidableEq

/-- Producer/consumer edge test: stage `p` produces an artifact that stage `c`
consumes (an edge of the dependency graph when `p` precedes `c`). -/
def consumes (p c : StageCall) : Bool :=
  p.outputs.any (fun a => c.inputs.contains a)

/-- Membership of a stage identity in a set of mapped calls. -/
def sidMem (s : List StageCall) (i : Nat) : Bool :=
  s.any (fun c => c.sid == i)

/-- Modelled from the spec: forward walk computing which stages are stale
because an explicit overwrite was requested on them or on something they
(transitively) depend on; edges only run forward in orchestration order, so a
single forward pass reaches the closure. `acc` holds the stale calls found so
far. -/
def owcAux (acc : List StageCall) : List StageCall → List StageCall
  | [] => acc
  | c :: rest =>
    if c.overwrite || acc.any (fun p => consumes p c)
    then owcAux (c :: acc) rest
    else owcAux acc rest

/-- Modelled from the spec: the forward overwrite closure of a mapped trace. -/
def overwriteClosure (tr : List StageCall) : List StageCall := owcAux [] tr

/-- A mapped stage is a leaf when no later stage consumes any of its
outputs. -/
def isLeaf (c : StageCall) (later : List StageCall) : Bool :=
  !(later.any (fun d => consumes c d))

/-- Modelled from the spec: the backward walk from leaves computing the
must-execute set: a stage is included when it is a leaf, or when at least one
of its outputs is consumed by an already-included later stage and its own
outputs are not fully cached — unless it is in the overwrite closure, in which
case cache state is disregarded. Consumers come later in orchestration order,
so one backward pass (recursing on the tail first) reaches the closure. -/
def mustExecute (owcS : List StageCall) : List StageCall → List StageCall
  | [] => []
  | c :: rest =>
    let m := mustExecute owcS rest
    if isLeaf c rest ||
        (m.any (fun d => consumes c d) && (!c.cached || sidMem owcS c.sid))
    then c :: m else m

/-- The must-execute set of a mapped trace. -/
def mustExecuteSet (tr : List StageCall) : List StageCall :=
  mustExecute (overwriteClosure tr) tr

/-- What phase 2 does with one mapped stage. -/
inductive Action where
  | execute : Action
  | cacheHit : Action
  | skip : Action
deriving DecidableEq

/-- Modelled from the spec: the phase-2 decision for one stage: stages outside
the must-execute set are skipped entirely; stages inside it cache-hit when
their outputs are fully cached and they are not in the overwrite closure, and
do real work otherwise. -/
def planAction (owcS me : List StageCall) (c : StageCall) : Action :=
  if sidMem me c.sid then
    if c.cached && !(sidMem owcS c.sid) then .cacheHit else .execute
  else .skip

/-- Observable phase-2 events: a body execution, an eager cache-hit load of a
stage of its own outputs, a lazy load of the cached outputs of a skipped producer
demanded by an executing consumer, or a skip that loads nothing. -/
inductive Event where
  | exec (i : Nat) : Event
  | hitLoad (i : Nat) : Event
  | lazyLoad (producer consumer : Nat) : Event
  | skipNoLoad (i : Nat) : Event
deriving DecidableEq

/-- Modelled from the spec: the events of one stage in phase 2, given the
stages mapped before it: a skipped stage loads nothing; a cache hit loads its
own outputs; an executing stage first lazily loads the cached outputs of every
skipped earlier producer it consumes from, then runs its body. -/
def stageEvents (owcS me prev : List StageCall) (c : StageCall) : List Event :=
  match planAction owcS me c with
  | .skip => [.skipNoLoad c.sid]
  | .cacheHit => [.hitLoad c.sid]
  | .execute =>
      ((prev.filter (fun p =>
          consumes p c && decide (planAction owcS me p = .skip))).map
        (fun p => Event.lazyLoad p.sid c.sid)) ++ [.exec c.sid]

/-- Phase-2 event trace over a mapped trace, accumulating the already-visited
calls in `prev`. -/
def phase2Aux (owcS me : List StageCall) :
    List StageCall → List StageCall → List Event
  | _, [] => []
  | prev, c :: rest =>
      stageEvents owcS me prev c ++ phase2Aux owcS me (prev ++ [c]) rest

/-- Modelled from the spec: the full phase-2 event trace of a mapped
pipeline. -/
def phase2Events (tr : List StageCall) : List Event :=
  phase2Aux (overwriteClosure tr) (mustExecuteSet tr) [] tr

/-- The overwrite closure is closed under forward dependency edges of the
trace: whenever a member produces an artifact consumed by a later stage, that
stage is a member too. -/
def OwcClosed (owcS tr : List StageCall) : Prop :=
  ∀ l1 c l2, tr = l1 ++ c :: l2 → sidMem owcS c.sid = true →
    ∀ d ∈ l2, consumes c d = true → sidMem owcS d.sid = true

/-! ## Theorems -/

lemma fields_hash_values_eq_map (ov : List (String × HashOverride)) :
    ∀ fs : List (String × FieldValue),
      fields_hash_values ov fs =
        fs.map (fun p => (p.1, get_parameter_hash_value ov p.1 p.2))
  | [] => by simp [fields_hash_values]
  | (n, v) :: rest => by
      simp [fields_hash_values, fields_hash_values_eq_map ov rest]

/-- Claim C1: for every parameter set and every permutation of its field
declaration order (holding field values and the override table fixed),
`hash_param_set` computes the identical fingerprint string, because each
representation of each field is digested independently and the integer digests are
summed (commutative addition) before rendering the hex string. -/
theorem c1_hash_order_independence (nm : String) (ow : Bool)
    (ov : List (String × HashOverride)) (fs1 fs2 : List (String × FieldValue))
    (hperm : fs1.Perm fs2) :
    (hash_param_set ⟨nm, ow, fs1, ov, none⟩).1 =
      (hash_param_set ⟨nm, ow, fs2, ov, none⟩).1 := by
  have h1 : (fields_hash_values ov fs1).Perm (fields_hash_values ov fs2) := by
    rw [fields_hash_values_eq_map, fields_hash_values_eq_map]
    exact hperm.map _
  have h2 := ((h1.filterMap (fun x => x.2.2)).map md5Int).sum_eq
  simp [hash_param_set, get_param_set_hash_values, compute_hash, h2]

/-- Witness for C1 at a concrete two-field parameter set and its swap. -/
theorem c1_hash_order_independence_witness :
    ([("a", FieldValue.prim "1"), ("b", FieldValue.prim "2")]).Perm
        [("b", FieldValue.prim "2"), ("a", FieldValue.prim "1")] ∧
    (hash_param_set ⟨"p", false,
        [("a", FieldValue.prim "1"), ("b", FieldValue.prim "2")], [], none⟩).1 =
      (hash_param_set ⟨"p", false,
        [("b", FieldValue.prim "2"), ("a", FieldValue.prim "1")], [], none⟩).1 := by
  have hperm : ([("a", FieldValue.prim "1"), ("b", FieldValue.prim "2")]).Perm
      [("b", FieldValue.prim "2"), ("a", FieldValue.prim "1")] :=
    List.Perm.swap ("b", FieldValue.prim "2") ("a", FieldValue.prim "1") []
  exact ⟨hperm, c1_hash_order_independence "p" false [] _ _ hperm⟩

/-- Claim C4: the hash representation of a field is determined by the first
applicable mechanism in this fixed order: skip blacklisted bookkeeping fields;
skip absent values; use a registered override (or skip when it is the ignore
marker); recurse into a nested dataclass; use the qualified name of a callable;
otherwise use `repr`. -/
theorem c4_hash_mechanism_priority (ov : List (String × HashOverride))
    (field : String) :
    (∀ v, field ∈ PARAMETERS_BLACKLIST →
        get_parameter_hash_value ov field v = ("skipped-blacklisted", none))
  ∧ (field ∉ PARAMETERS_BLACKLIST →
        get_parameter_hash_value ov field .absent = ("skipped-none", none))
  ∧ (∀ v, field ∉ PARAMETERS_BLACKLIST → v.isAbsent = false →
        lookupOverride ov field = some .ignore →
        get_parameter_hash_value ov field v = ("skipped-override-ignore", none))
  ∧ (∀ v s, field ∉ PARAMETERS_BLACKLIST → v.isAbsent = false →
        lookupOverride ov field = some (.represent s) →
        get_parameter_hash_value ov field v = ("hash-override", some s))
  ∧ (∀ fs ov2, field ∉ PARAMETERS_BLACKLIST → lookupOverride ov field = none →
        get_parameter_hash_value ov field (.nested fs ov2) =
          ("recursive-dataclass",
            some (compositeRepr (fields_hash_values ov2 fs))))
  ∧ (∀ q, field ∉ PARAMETERS_BLACKLIST → lookupOverride ov field = none →
        get_parameter_hash_value ov field (.callable q) =
          ("callable-qualname", some q))
  ∧ (∀ rp, field ∉ PARAMETERS_BLACKLIST → lookupOverride ov field = none →
        get_parameter_hash_value ov field (.prim rp) = ("repr", some rp)) := by
  refine ⟨?_, ?_, ?_, ?_, ?_, ?_, ?_⟩
  · intro v hb
    simp [get_parameter_hash_value.eq_def, hb]
  · intro hb
    simp [get_parameter_hash_value.eq_def, hb]
  · intro v hb ha ho
    cases v <;>
      simp_all [get_parameter_hash_value.eq_def, FieldValue.isAbsent]
  · intro v s hb ha ho
    cases v <;>
      simp_all [get_parameter_hash_value.eq_def, FieldValue.isAbsent]
  · intro fs ov2 hb ho
    simp [get_parameter_hash_value, hb, ho]
  · intro q hb ho
    simp [get_parameter_hash_value, hb, ho]
  · intro rp hb ho
    simp [get_parameter_hash_value, hb, ho]

/-- Witness for C4: a registered override takes precedence over the callable
mechanism for a non-blacklisted, non-absent field. -/
theorem c4_hash_mechanism_priority_witness :
    "f" ∉ PARAMETERS_BLACKLIST ∧
    (FieldValue.callable "torch.nn.Module").isAbsent = false ∧
    lookupOverride [("f", HashOverride.represent "X")] "f" =
      some (HashOverride.represent "X") ∧
    get_parameter_hash_value [("f", HashOverride.represent "X")] "f"
        (FieldValue.callable "torch.nn.Module") = ("hash-override", some "X") :=
  ⟨by decide, rfl, by decide,
    (c4_hash_mechanism_priority [("f", HashOverride.represent "X")]
        "f").2.2.2.1 (FieldValue.callable "torch.nn.Module") "X" (by decide)
      rfl (by decide)⟩

/-- Claim C6: once the fingerprint of a parameter set has been computed it is
memoized on the instance and never recomputed: mutating any field afterward
and hashing again returns the original fingerprint unchanged. -/
theorem c6_fingerprint_memoized (ps : ParameterSet) (field : String)
    (v : FieldValue) :
    (hash_param_set (set_field (hash_param_set ps).2 field v)).1 =
      (hash_param_set ps).1 := by
  cases hps : ps.fingerprint with
  | some h => simp [hash_param_set, hps, set_field]
  | none => simp [hash_param_set, hps, set_field]

/-- Claim C7: a stage declaration whose cachers list is non-empty but shorter
than its outputs list raises a configuration error at stage-definition time,
before any execution. -/
theorem c7_all_or_nothing_cachers (name : String) (ins outs : List String)
    (cs : List String) (_hne : cs ≠ []) (hlt : cs.length < outs.length) :
    defineStage name ins outs (some cs) =
      .error (.cachersOutputsMismatch cs.length outs.length) := by
  simp [defineStage, Nat.ne_of_lt hlt]

/-- Witness for C7: two cachers declared for three outputs is rejected at
declaration time. -/
theorem c7_all_or_nothing_cachers_witness :
    (["json", "pickle"] : List String) ≠ [] ∧
    (["json", "pickle"] : List String).length <
      (["dataset", "metrics", "model"] : List String).length ∧
    defineStage "train" [] ["dataset", "metrics", "model"]
        (some ["json", "pickle"]) = .error (.cachersOutputsMismatch 2 3) :=
  ⟨by decide, by decide,
    c7_all_or_nothing_cachers "train" [] ["dataset", "metrics", "model"]
      ["json", "pickle"] (by decide) (by decide)⟩

/-- Claim C8: for every stage invocation and declared input name: a name
absent from the record state without suppression raises the distinguishable
missing-input error; absent with suppression falls back to the own
default; and an explicitly passed keyword always wins over both. -/
theorem c8_input_resolution {α : Type} (state kwargs : List (String × α))
    (suppressMissing : Bool) (defaults : String → Option α)
    (inputName : String) :
    (stateLookup kwargs inputName = none → stateLookup state inputName = none →
        suppressMissing = false →
        resolveInput state kwargs suppressMissing defaults inputName =
          .error (.missingKey inputName))
  ∧ (∀ d, stateLookup kwargs inputName = none →
        stateLookup state inputName = none → suppressMissing = true →
        defaults inputName = some d →
        resolveInput state kwargs suppressMissing defaults inputName = .ok d)
  ∧ (∀ v, stateLookup kwargs inputName = some v →
        resolveInput state kwargs suppressMissing defaults inputName =
          .ok v) := by
  refine ⟨?_, ?_, ?_⟩ <;> intros <;> simp_all [resolveInput]

/-- Witness for C8: an explicitly passed keyword wins over a conflicting state
value; a missing unsuppressed input errors; a suppressed missing input uses
the default. -/
theorem c8_input_resolution_witness :
    stateLookup [("x", (2 : Nat))] "x" = some 2 ∧
    resolveInput [("x", (1 : Nat))] [("x", 2)] false (fun _ => some 0) "x" =
      .ok 2 ∧
    resolveInput ([] : List (String × Nat)) [] false (fun _ => some 0) "y" =
      .error (.missingKey "y") ∧
    resolveInput ([] : List (String × Nat)) [] true (fun _ => some 7) "y" =
      .ok 7 :=
  ⟨by decide,
    (c8_input_resolution [("x", 1)] [("x", 2)] false (fun _ => some 0)
        "x").2.2 2 (by decide),
    (c8_input_resolution [] [] false (fun _ => some 0) "y").1 (by decide)
      (by decide) rfl,
    (c8_input_resolution [] [] true (fun _ => some 7) "y").2.1 7 (by decide)
      (by decide) rfl rfl⟩

/-- Claim C9: each declared input of an aggregate stage is populated with a
dictionary keyed by exactly those contributing records whose state contains
the artifact; a record lacking it produces a warning, never an error, and is
simply omitted from the dictionary of that input. -/
theorem c9_aggregate_partial_coverage {α : Type}
    (records : List (ContribRecord α)) (inputName : String) :
    (∀ r v, (r, v) ∈ aggregateInput records inputName →
        r ∈ records ∧ stateLookup r.state inputName = some v)
  ∧ (∀ r ∈ records, ∀ v, stateLookup r.state inputName = some v →
        (r, v) ∈ aggregateInput records inputName)
  ∧ (∀ r ∈ records, stateLookup r.state inputName = none →
        r.rid ∈ aggregateWarnings records inputName ∧
          ∀ v, (r, v) ∉ aggregateInput records inputName) := by
  refine ⟨?_, ?_, ?_⟩
  · intro r v hm
    simp only [aggregateInput, List.mem_filterMap] at hm
    obtain ⟨a, ha, hfa⟩ := hm
    rcases hopt : stateLookup a.state inputName with _ | w <;> rw [hopt] at hfa
    · simp at hfa
    · simp only [Option.map_some'] at hfa
      cases hfa
      exact ⟨ha, hopt⟩
  · intro r hr v hv
    simp only [aggregateInput, List.mem_filterMap]
    exact ⟨r, hr, by rw [hv]; rfl⟩
  · intro r hr hn
    constructor
    · simp only [aggregateWarnings, List.mem_map, List.mem_filter]
      exact ⟨r, ⟨hr, by simp [hn]⟩, rfl⟩
    · intro v hm
      simp only [aggregateInput, List.mem_filterMap] at hm
      obtain ⟨a, ha, hfa⟩ := hm
      rcases hopt : stateLookup a.state inputName with _ | w <;>
        rw [hopt] at hfa
      · simp at hfa
      · simp only [Option.map_some'] at hfa
        cases hfa
        rw [hopt] at hn
        exact Option.noConfusion hn

/-- Witness for C9 at the three-record scenario of the spec: exactly the two
records carrying the artifact key the dictionary, the third is warned about
and omitted. -/
theorem c9_aggregate_partial_coverage_witness :
    (ContribRecord.mk 0 [("model", (10 : Nat))]) ∈
      ([⟨0, [("model", 10)]⟩, ⟨1, [("model", 11)]⟩, ⟨2, [("results", 6)]⟩] :
        List (ContribRecord Nat)) ∧
    stateLookup (ContribRecord.mk 2 [("results", (6 : Nat))]).state "model" =
      none ∧
    (ContribRecord.mk 0 [("model", (10 : Nat))], (10 : Nat)) ∈
      aggregateInput
        [⟨0, [("model", 10)]⟩, ⟨1, [("model", 11)]⟩, ⟨2, [("results", 6)]⟩]
        "model" ∧
    (2 : Nat) ∈
      aggregateWarnings
        ([⟨0, [("model", 10)]⟩, ⟨1, [("model", 11)]⟩, ⟨2, [("results", 6)]⟩] :
          List (ContribRecord Nat)) "model" :=
  ⟨by decide, by decide,
    (c9_aggregate_partial_coverage
        [⟨0, [("model", 10)]⟩, ⟨1, [("model", 11)]⟩, ⟨2, [("results", 6)]⟩]
        "model").2.1 ⟨0, [("model", 10)]⟩ (by decide) 10 (by decide),
    ((c9_aggregate_partial_coverage
        [⟨0, [("model", 10)]⟩, ⟨1, [("model", 11)]⟩, ⟨2, [("results", 6)]⟩]
        "model").2.2 ⟨2, [("results", 6)]⟩ (by decide) (by decide)).1⟩

lemma stateLookup_cons (e : String × α) (st : List (String × α)) (k : String) :
    stateLookup (e :: st) k = if e.1 = k then some e.2 else stateLookup st k := by
  by_cases h : e.1 = k <;> simp [stateLookup, List.find?_cons, h]

lemma cacheLookup_cons (e : CacheKey × α) (cache : Cache α) (k : CacheKey) :
    cacheLookup (e :: cache) k =
      if e.1 = k then some e.2 else cacheLookup cache k := by
  by_cases h : e.1 = k <;> simp [cacheLookup, List.find?_cons, h]

lemma filterMap_congr_mem {β γ : Type*} (f g : β → Option γ) :
    ∀ l : List β, (∀ x ∈ l, f x = g x) → l.filterMap f = l.filterMap g
  | [], _ => rfl
  | x :: xs, h => by
      simp only [List.filterMap_cons, h x (List.mem_cons_self x xs),
        filterMap_congr_mem f g xs
          (fun y hy => h y (List.mem_cons_of_mem x hy))]

/-- A freshly saved batch of cache entries answers lookups for the saved
output names exactly as the committed association list does. -/
lemma cacheLookup_saved (h nm : String) :
    ∀ (os : List String) (vs : List α) (c0 : Cache α),
      (∀ o ∈ os, cacheLookup c0 (h, nm, o) = none) →
      ∀ o ∈ os,
        cacheLookup ((os.zip vs).map (fun p => ((h, nm, p.1), p.2)) ++ c0)
            (h, nm, o) = stateLookup (os.zip vs) o
  | [], _, _, _, o, ho => absurd ho (List.not_mem_nil o)
  | o0 :: os, [], c0, hfresh, o, ho => by
      simpa [stateLookup] using hfresh o ho
  | o0 :: os, v0 :: vs, c0, hfresh, o, ho => by
      rw [List.zip_cons_cons, List.map_cons, List.cons_append, cacheLookup_cons,
        stateLookup_cons]
      by_cases heq : o0 = o
      · simp [heq]
      · have hmem : o ∈ os := by
          rcases List.mem_cons.mp ho with h1 | h1
          · exact absurd h1.symm heq
          · exact h1
        have : ((h, nm, o0) : CacheKey) ≠ (h, nm, o) := by
          simp [Prod.ext_iff, heq]
        simp only [this, if_neg, heq]
        exact cacheLookup_saved h nm os vs c0
          (fun x hx => hfresh x (List.mem_cons_of_mem o0 hx)) o hmem

lemma stateLookup_zip_isSome :
    ∀ (os : List String) (vs : List α), vs.length = os.length →
      ∀ o ∈ os, (stateLookup (os.zip vs) o).isSome = true
  | [], _, _, o, ho => absurd ho (List.not_mem_nil o)
  | o0 :: os, [], hlen, _, _ => by simp at hlen
  | o0 :: os, v0 :: vs, hlen, o, ho => by
      rw [List.zip_cons_cons, stateLookup_cons]
      by_cases heq : o0 = o
      · simp [heq]
      · have hmem : o ∈ os := by
          rcases List.mem_cons.mp ho with h1 | h1
          · exact absurd h1.symm heq
          · exact h1
        simp only [heq, if_neg, not_false_iff]
        exact stateLookup_zip_isSome os vs (by simpa using hlen) o hmem

/-- Rebuilding the committed pairs from lookups over the committed
association list reproduces the committed pairs exactly. -/
lemma filterMap_stateLookup_zip :
    ∀ (os : List String) (vs : List α), os.Nodup → vs.length = os.length →
      os.filterMap
          (fun o => (stateLookup (os.zip vs) o).map (fun v => (o, v))) =
        os.zip vs
  | [], _, _, _ => by simp
  | o0 :: os, [], _, hlen => by simp at hlen
  | o0 :: os, v0 :: vs, hnd, hlen => by
      rw [List.zip_cons_cons, List.filterMap_cons]
      have hhead : stateLookup ((o0, v0) :: os.zip vs) o0 = some v0 := by
        simp [stateLookup_cons]
      rw [hhead]
      have hnotmem : o0 ∉ os := (List.nodup_cons.mp hnd).1
      have htail :
          os.filterMap
              (fun o =>
                (stateLookup ((o0, v0) :: os.zip vs) o).map (fun v => (o, v))) =
            os.filterMap
              (fun o => (stateLookup (os.zip vs) o).map (fun v => (o, v))) := by
        refine filterMap_congr_mem
          (fun o => (stateLookup ((o0, v0) :: os.zip vs) o).map
            (fun v => (o, v)))
          (fun o => (stateLookup (os.zip vs) o).map (fun v => (o, v)))
          os (fun o ho => ?_)
        have : o0 ≠ o := fun hcontra => hnotmem (hcontra ▸ ho)
        simp only [stateLookup_cons, this, if_false]
      rw [htail, filterMap_stateLookup_zip os vs (List.nodup_cons.mp hnd).2
        (by simpa using hlen)]
      simp

/-- Claim C5: for every stage that declares cachers, invoking the stage twice
against a fresh cache with records carrying the same parameter hash executes
the wrapped function body exactly once: the second invocation finds every
cache entry of every declared output for that hash, skips the body, and retrieves
identical output values from cache. -/
theorem c5_short_circuit_idempotence {α : Type} (sd : StageDef α)
    (r1 r2 : Record α) (c0 : Cache α)
    (hc : sd.hasCachers = true)
    (hh : r2.hash = r1.hash)
    (hnz : sd.outputs ≠ [])
    (hnd : sd.outputs.Nodup)
    (hlen : (sd.body r1.state).length = sd.outputs.length)
    (hfresh : ∀ o ∈ sd.outputs,
      cacheLookup c0 (r1.hash, sd.name, o) = none) :
    (runStage sd false r1 c0).executed = true ∧
    (runStage sd false r2 (runStage sd false r1 c0).cache).executed = false ∧
    (runStage sd false r2 (runStage sd false r1 c0).cache).record.output =
      some (sd.body r1.state) ∧
    (runStage sd false r2 (runStage sd false r1 c0).cache).record.state =
      sd.outputs.zip (sd.body r1.state) ++ r2.state := by
  obtain ⟨o0, os, ho0⟩ : ∃ o0 os, sd.outputs = o0 :: os := by
    cases hout : sd.outputs with
    | nil => exact absurd hout hnz
    | cons a l => exact ⟨a, l, rfl⟩
  have hmem0 : o0 ∈ sd.outputs := ho0 ▸ List.mem_cons_self o0 os
  -- the first invocation cannot find all outputs cached
  have hall1 : sd.outputs.all
      (fun o => (cacheLookup c0 (r1.hash, sd.name, o)).isSome) = false :=
    List.all_eq_false.mpr ⟨o0, hmem0, by simp [hfresh o0 hmem0]⟩
  have hrun1 : runStage sd false r1 c0 =
      { record := { r1 with
          state := sd.outputs.zip (sd.body r1.state) ++ r1.state,
          output := some (sd.body r1.state) },
        cache := (sd.outputs.zip (sd.body r1.state)).map
          (fun p => ((r1.hash, sd.name, p.1), p.2)) ++ c0,
        executed := true } := by
    rw [runStage, if_neg (by simp [hall1])]
    simp [hc]
  have hsaved := cacheLookup_saved r1.hash sd.name sd.outputs
    (sd.body r1.state) c0 hfresh
  -- the second invocation finds every output cached
  have hall2 : sd.outputs.all
      (fun o => (cacheLookup (runStage sd false r1 c0).cache
        (r2.hash, sd.name, o)).isSome) = true := by
    rw [List.all_eq_true]
    intro o ho
    simp only [hrun1, hh]
    rw [hsaved o ho]
    exact stateLookup_zip_isSome sd.outputs (sd.body r1.state) hlen o ho
  have hloaded :
      sd.outputs.filterMap
          (fun o => (cacheLookup (runStage sd false r1 c0).cache
            (r2.hash, sd.name, o)).map (fun v => (o, v))) =
        sd.outputs.zip (sd.body r1.state) := by
    have hcongr :
        sd.outputs.filterMap
            (fun o => (cacheLookup (runStage sd false r1 c0).cache
              (r2.hash, sd.name, o)).map (fun v => (o, v))) =
          sd.outputs.filterMap
            (fun o => (stateLookup
              (sd.outputs.zip (sd.body r1.state)) o).map (fun v => (o, v))) := by
      refine filterMap_congr_mem _ _ sd.outputs (fun o ho => ?_)
      simp only [hrun1, hh]
      rw [hsaved o ho]
    rw [hcongr]
    exact filterMap_stateLookup_zip sd.outputs (sd.body r1.state) hnd hlen
  have hrun2 : runStage sd false r2 (runStage sd false r1 c0).cache =
      { record := { r2 with
          state := sd.outputs.zip (sd.body r1.state) ++ r2.state,
          output := some ((sd.outputs.zip (sd.body r1.state)).map
            (fun p => p.2)) },
        cache := (runStage sd false r1 c0).cache,
        executed := false } := by
    rw [runStage, if_pos (by simp [hc, hall2])]
    simp only [hloaded]
  refine ⟨by rw [hrun1], by rw [hrun2], ?_, by rw [hrun2]⟩
  rw [hrun2]
  simp only []
  congr 1
  rw [List.map_snd_zip]
  exact le_of_eq hlen

/-- Witness for C5 at a concrete one-output stage run twice against an empty
cache: the body runs on the first call only, and the second call retrieves
the identical value. -/
theorem c5_short_circuit_idempotence_witness :
    (runStage (StageDef.mk "compute" ["val"] true (fun _ => [42]))
        false (Record.mk 0 "h1" [] none) []).executed = true ∧
    (runStage (StageDef.mk "compute" ["val"] true (fun _ => [42])) false
        (Record.mk 1 "h1" [] none)
        (runStage (StageDef.mk "compute" ["val"] true (fun _ => [42]))
          false (Record.mk 0 "h1" [] none) []).cache).executed = false ∧
    (runStage (StageDef.mk "compute" ["val"] true (fun _ => [42])) false
        (Record.mk 1 "h1" [] none)
        (runStage (StageDef.mk "compute" ["val"] true (fun _ => [42]))
          false (Record.mk 0 "h1" [] none) []).cache).record.output =
      some [42] ∧
    (runStage (StageDef.mk "compute" ["val"] true (fun _ => [42])) false
        (Record.mk 1 "h1" [] none)
        (runStage (StageDef.mk "compute" ["val"] true (fun _ => [42]))
          false (Record.mk 0 "h1" [] none) []).cache).record.state =
      [("val", 42)] :=
  c5_short_circuit_idempotence
    (StageDef.mk "compute" ["val"] true (fun _ => [42]))
    (Record.mk 0 "h1" [] none) (Record.mk 1 "h1" [] none) [] rfl rfl
    (by decide) (by decide) rfl (by intro o _; rfl)

/-- Claim C10: a stage invocation returns the record that was passed in,
mutated (same identity, same parameter hash), rather than the wrapped
return values of the wrapped function; those remain separately accessible via
`record.output`, and chaining a second stage on the returned record keeps
operating on the same record. -/
theorem c10_stage_returns_record {α : Type} (sd sd2 : StageDef α) (ow : Bool)
    (r : Record α) (cache cache2 : Cache α) :
    (runStage sd ow r cache).record.rid = r.rid ∧
    (runStage sd ow r cache).record.hash = r.hash ∧
    ((runStage sd ow r cache).executed = true →
      (runStage sd ow r cache).record.output = some (sd.body r.state)) ∧
    (runStage sd2 ow (runStage sd ow r cache).record cache2).record.rid =
      r.rid := by
  have hbase : ∀ (sd3 : StageDef α) (r3 : Record α) (c3 : Cache α),
      (runStage sd3 ow r3 c3).record.rid = r3.rid ∧
      (runStage sd3 ow r3 c3).record.hash = r3.hash ∧
      ((runStage sd3 ow r3 c3).executed = true →
        (runStage sd3 ow r3 c3).record.output = some (sd3.body r3.state)) := by
    intro sd3 r3 c3
    rw [runStage]
    split <;> simp
  obtain ⟨h1, h2, h3⟩ := hbase sd r cache
  refine ⟨h1, h2, h3, ?_⟩
  rw [(hbase sd2 (runStage sd ow r cache).record cache2).1, h1]

/-- Witness for C10: at a concrete executing stage the returned record keeps
its identity and exposes the direct output of the body. -/
theorem c10_stage_returns_record_witness :
    (runStage (StageDef.mk "s" ["o"] false (fun _ => [5])) false
        (Record.mk 3 "h" [] none) []).executed = true ∧
    (runStage (StageDef.mk "s" ["o"] false (fun _ => [5])) false
        (Record.mk 3 "h" [] none) []).record.rid = 3 ∧
    (runStage (StageDef.mk "s" ["o"] false (fun _ => [5])) false
        (Record.mk 3 "h" [] none) []).record.output = some [5] :=
  ⟨rfl,
    (c10_stage_returns_record (StageDef.mk "s" ["o"] false (fun _ => [5]))
      (StageDef.mk "s" ["o"] false (fun _ => [5])) false
      (Record.mk 3 "h" [] none) [] []).1,
    (c10_stage_returns_record (StageDef.mk "s" ["o"] false (fun _ => [5]))
      (StageDef.mk "s" ["o"] false (fun _ => [5])) false
      (Record.mk 3 "h" [] none) [] []).2.2.1 rfl⟩

lemma sidMem_cons (c : StageCall) (s : List StageCall) (i : Nat) :
    sidMem (c :: s) i = (c.sid == i || sidMem s i) := by
  simp [sidMem, List.any_cons]

lemma sidMem_of_mem {s : List StageCall} {c : StageCall} (h : c ∈ s) :
    sidMem s c.sid = true := by
  simp only [sidMem, List.any_eq_true]
  exact ⟨c, h, by simp⟩

lemma sidMem_iff {s : List StageCall} {i : Nat} :
    sidMem s i = true ↔ ∃ c ∈ s, c.sid = i := by
  simp [sidMem, List.any_eq_true]

lemma owcAux_mem_mono :
    ∀ (tr acc : List StageCall) (p : StageCall), p ∈ acc → p ∈ owcAux acc tr
  | [], _, _, hp => hp
  | c :: rest, acc, p, hp => by
      simp only [owcAux]
      split
      · exact owcAux_mem_mono rest (c :: acc) p (List.mem_cons_of_mem c hp)
      · exact owcAux_mem_mono rest acc p hp

lemma owcAux_consume :
    ∀ (tr acc : List StageCall) (p : StageCall), p ∈ acc →
      ∀ d ∈ tr, consumes p d = true → sidMem (owcAux acc tr) d.sid = true
  | [], _, _, _, d, hd, _ => absurd hd (List.not_mem_nil d)
  | c :: rest, acc, p, hp, d, hd, hcons => by
      simp only [owcAux]
      rcases List.mem_cons.mp hd with heq | hd2
      · subst heq
        have hcond : (d.overwrite || acc.any (fun q => consumes q d)) = true := by
          simp only [Bool.or_eq_true, List.any_eq_true]
          exact Or.inr ⟨p, hp, hcons⟩
        rw [if_pos hcond]
        exact sidMem_of_mem
          (owcAux_mem_mono rest (d :: acc) d (List.mem_cons_self d acc))
      · split
        · exact owcAux_consume rest (c :: acc) p (List.mem_cons_of_mem c hp)
            d hd2 hcons
        · exact owcAux_consume rest acc p hp d hd2 hcons

lemma owcAux_overwrite :
    ∀ (tr acc : List StageCall) (c : StageCall), c ∈ tr →
      c.overwrite = true → sidMem (owcAux acc tr) c.sid = true
  | [], _, c, hc, _ => absurd hc (List.not_mem_nil c)
  | c0 :: rest, acc, c, hc, how => by
      simp only [owcAux]
      rcases List.mem_cons.mp hc with heq | hc2
      · subst heq
        rw [if_pos (by simp [how])]
        exact sidMem_of_mem
          (owcAux_mem_mono rest (c :: acc) c (List.mem_cons_self c acc))
      · split
        · exact owcAux_overwrite rest (c0 :: acc) c hc2 how
        · exact owcAux_overwrite rest acc c hc2 how

lemma owcAux_split :
    ∀ (xs ys acc : List StageCall),
      owcAux acc (xs ++ ys) = owcAux (owcAux acc xs) ys
  | [], _, _ => rfl
  | x :: xs, ys, acc => by
      simp only [List.cons_append, owcAux]
      split
      · exact owcAux_split xs ys (x :: acc)
      · exact owcAux_split xs ys acc

lemma owcAux_origin :
    ∀ (tr acc : List StageCall) (i : Nat), sidMem (owcAux acc tr) i = true →
      sidMem acc i = true ∨ ∃ c ∈ tr, c.sid = i
  | [], _, _, h => Or.inl h
  | c :: rest, acc, i, h => by
      simp only [owcAux] at h
      split at h
      · rcases owcAux_origin rest (c :: acc) i h with h1 | ⟨d, hd, hds⟩
        · rw [sidMem_cons] at h1
          rcases Bool.or_eq_true_iff.mp h1 with h2 | h2
          · exact Or.inr ⟨c, List.mem_cons_self c rest, by simpa using h2⟩
          · exact Or.inl h2
        · exact Or.inr ⟨d, List.mem_cons_of_mem c hd, hds⟩
      · rcases owcAux_origin rest acc i h with h1 | ⟨d, hd, hds⟩
        · exact Or.inl h1
        · exact Or.inr ⟨d, List.mem_cons_of_mem c hd, hds⟩

lemma mustExecute_sub (owcS : List StageCall) :
    ∀ tr, ∀ c ∈ mustExecute owcS tr, c ∈ tr
  | [], c, h => by simp [mustExecute] at h
  | c0 :: rest, c, h => by
      simp only [mustExecute] at h
      split at h
      · rcases List.mem_cons.mp h with heq | h2
        · exact heq ▸ List.mem_cons_self c0 rest
        · exact List.mem_cons_of_mem c0 (mustExecute_sub owcS rest c h2)
      · exact List.mem_cons_of_mem c0 (mustExecute_sub owcS rest c h)

lemma mustExecute_cons_mono (owcS : List StageCall) (c0 : StageCall)
    (rest : List StageCall) :
    ∀ c ∈ mustExecute owcS rest, c ∈ mustExecute owcS (c0 :: rest) := by
  intro c hc
  simp only [mustExecute]
  split
  · exact List.mem_cons_of_mem c0 hc
  · exact hc

lemma mustExecute_sound (owcS : List StageCall) :
    ∀ tr, ∀ c ∈ mustExecute owcS tr,
      ∃ l1 l2, tr = l1 ++ c :: l2 ∧
        (isLeaf c l2 = true ∨
          ((mustExecute owcS l2).any (fun d => consumes c d) = true ∧
            (!c.cached || sidMem owcS c.sid) = true))
  | [], c, h => by simp [mustExecute] at h
  | c0 :: rest, c, h => by
      simp only [mustExecute] at h
      by_cases hcond : (isLeaf c0 rest ||
          ((mustExecute owcS rest).any (fun d => consumes c0 d) &&
            (!c0.cached || sidMem owcS c0.sid))) = true
      · rw [if_pos hcond] at h
        rcases List.mem_cons.mp h with heq | h2
        · subst heq
          refine ⟨[], rest, rfl, ?_⟩
          rcases Bool.or_eq_true_iff.mp hcond with h3 | h3
          · exact Or.inl h3
          · exact Or.inr (Bool.and_eq_true_iff.mp h3)
        · obtain ⟨l1, l2, heq, hp⟩ := mustExecute_sound owcS rest c h2
          exact ⟨c0 :: l1, l2, by rw [heq, List.cons_append], hp⟩
      · rw [if_neg hcond] at h
        obtain ⟨l1, l2, heq, hp⟩ := mustExecute_sound owcS rest c h
        exact ⟨c0 :: l1, l2, by rw [heq, List.cons_append], hp⟩

lemma owcClosed_tail {owcS : List StageCall} {c0 : StageCall}
    {rest : List StageCall} (h : OwcClosed owcS (c0 :: rest)) :
    OwcClosed owcS rest := by
  intro l1 c l2 heq hsid d hd hcons
  exact h (c0 :: l1) c l2 (by rw [heq, List.cons_append]) hsid d hd hcons

lemma owc_mem_mustExecute {owcS : List StageCall} :
    ∀ tr, OwcClosed owcS tr →
      ∀ c ∈ tr, sidMem owcS c.sid = true → c ∈ mustExecute owcS tr
  | [], _, c, hc, _ => absurd hc (List.not_mem_nil c)
  | c0 :: rest, hclosed, c, hc, hsid => by
      rcases List.mem_cons.mp hc with heq | hc2
      · subst heq
        simp only [mustExecute]
        by_cases hleaf : isLeaf c rest = true
        · rw [if_pos (by simp [hleaf])]
          exact List.mem_cons_self c _
        · have hany : rest.any (fun d => consumes c d) = true := by
            have := Bool.eq_false_iff.mpr hleaf
            simp only [isLeaf, Bool.not_eq_false] at this
            simpa using this
          obtain ⟨d, hd, hdc⟩ := List.any_eq_true.mp hany
          have hdsid : sidMem owcS d.sid = true :=
            hclosed [] c rest rfl hsid d hd hdc
          have hdme : d ∈ mustExecute owcS rest :=
            owc_mem_mustExecute rest (owcClosed_tail hclosed) d hd hdsid
          have hany2 : (mustExecute owcS rest).any
              (fun d2 => consumes c d2) = true :=
            List.any_eq_true.mpr ⟨d, hdme, hdc⟩
          rw [if_pos (by simp [hany2, hsid])]
          exact List.mem_cons_self c _
      · exact mustExecute_cons_mono owcS c0 rest c
          (owc_mem_mustExecute rest (owcClosed_tail hclosed) c hc2 hsid)

lemma planAction_skip_of_not_mem {owcS me : List StageCall} {c : StageCall}
    (h : sidMem me c.sid = false) : planAction owcS me c = .skip := by
  simp [planAction, h]

lemma planAction_mem_of_ne_skip {owcS me : List StageCall} {c : StageCall}
    (h : planAction owcS me c ≠ .skip) : sidMem me c.sid = true := by
  cases hb : sidMem me c.sid with
  | false => exact absurd (planAction_skip_of_not_mem hb) h
  | true => rfl

lemma planAction_not_execute_cached {owcS me : List StageCall} {c : StageCall}
    (hcached : c.cached = true) (howc : sidMem owcS c.sid = false) :
    planAction owcS me c ≠ .execute := by
  unfold planAction
  split <;> simp [hcached, howc]

lemma planAction_execute_of_owc {owcS me : List StageCall} {c : StageCall}
    (hme : sidMem me c.sid = true) (howc : sidMem owcS c.sid = true) :
    planAction owcS me c = .execute := by
  simp [planAction, hme, howc]

lemma stageEvents_exec {owcS me prev : List StageCall} {c : StageCall}
    {i : Nat} (h : Event.exec i ∈ stageEvents owcS me prev c) :
    i = c.sid ∧ planAction owcS me c = .execute := by
  unfold stageEvents at h
  cases hpa : planAction owcS me c <;> rw [hpa] at h <;> simp at h
  exact ⟨h, rfl⟩

lemma stageEvents_hitLoad {owcS me prev : List StageCall} {c : StageCall}
    {i : Nat} (h : Event.hitLoad i ∈ stageEvents owcS me prev c) :
    i = c.sid ∧ planAction owcS me c = .cacheHit := by
  unfold stageEvents at h
  cases hpa : planAction owcS me c <;> rw [hpa] at h <;> simp at h
  exact ⟨h, rfl⟩

lemma stageEvents_lazyLoad {owcS me prev : List StageCall} {c : StageCall}
    {p i : Nat} (h : Event.lazyLoad p i ∈ stageEvents owcS me prev c) :
    i = c.sid ∧ planAction owcS me c = .execute ∧
      ∃ q ∈ prev, q.sid = p ∧ consumes q c = true ∧
        planAction owcS me q = .skip := by
  unfold stageEvents at h
  cases hpa : planAction owcS me c <;> rw [hpa] at h <;> simp at h
  obtain ⟨q, ⟨hqmem, hqcons, hqskip⟩, hqs, his⟩ := h
  exact ⟨his.symm, rfl, q, hqmem, hqs, hqcons, hqskip⟩

lemma stageEvents_lazyLoad_mem {owcS me prev : List StageCall}
    {c q : StageCall} (hq : q ∈ prev) (hcons : consumes q c = true)
    (hskip : planAction owcS me q = .skip)
    (hexec : planAction owcS me c = .execute) :
    Event.lazyLoad q.sid c.sid ∈ stageEvents owcS me prev c := by
  unfold stageEvents
  rw [hexec]
  refine List.mem_append_left _ ?_
  refine List.mem_map.mpr ⟨q, ?_, rfl⟩
  refine List.mem_filter.mpr ⟨hq, ?_⟩
  simp [hcons, hskip]

lemma phase2Aux_append (owcS me : List StageCall) :
    ∀ (xs ys prev : List StageCall),
      phase2Aux owcS me prev (xs ++ ys) =
        phase2Aux owcS me prev xs ++ phase2Aux owcS me (prev ++ xs) ys
  | [], ys, prev => by simp [phase2Aux]
  | x :: xs, ys, prev => by
      simp only [List.cons_append, phase2Aux, List.append_eq]
      rw [phase2Aux_append owcS me xs ys (prev ++ [x])]
      simp [List.append_assoc]

lemma phase2Aux_mem (owcS me : List StageCall) :
    ∀ (tr prev : List StageCall) (e : Event), e ∈ phase2Aux owcS me prev tr →
      ∃ l1 c l2, tr = l1 ++ c :: l2 ∧ e ∈ stageEvents owcS me (prev ++ l1) c
  | [], prev, e, h => by simp [phase2Aux] at h
  | c :: rest, prev, e, h => by
      simp only [phase2Aux] at h
      rcases List.mem_append.mp h with h1 | h2
      · exact ⟨[], c, rest, rfl, by simpa using h1⟩
      · obtain ⟨l1, c2, l2, heq, hmem⟩ :=
          phase2Aux_mem owcS me rest (prev ++ [c]) e h2
        refine ⟨c :: l1, c2, l2, by simp [heq], ?_⟩
        have : prev ++ [c] ++ l1 = prev ++ c :: l1 := by
          rw [List.append_assoc, List.singleton_append]
        rwa [this] at hmem

lemma sid_notmem_of_split {tr l1 l2 : List StageCall} {c : StageCall}
    (hnodup : (tr.map StageCall.sid).Nodup) (heq : tr = l1 ++ c :: l2) :
    c.sid ∉ l1.map StageCall.sid ∧ c.sid ∉ l2.map StageCall.sid := by
  subst heq
  rw [List.map_append, List.map_cons] at hnodup
  have h1 := (List.nodup_cons.mp (List.nodup_middle.mp hnodup)).1
  rw [List.mem_append] at h1
  exact ⟨fun hx => h1 (Or.inl hx), fun hx => h1 (Or.inr hx)⟩

/-- The forward overwrite closure of a mapped trace propagates along every
dependency edge of the trace. -/
lemma owc_forward (tr : List StageCall)
    (hnodup : (tr.map StageCall.sid).Nodup) :
    ∀ l1 c l2, tr = l1 ++ c :: l2 →
      sidMem (overwriteClosure tr) c.sid = true →
      ∀ d ∈ l2, consumes c d = true →
        sidMem (overwriteClosure tr) d.sid = true := by
  intro l1 c l2 heq hc d hd hcons
  obtain ⟨hn1, hn2⟩ := sid_notmem_of_split hnodup heq
  subst heq
  unfold overwriteClosure at hc ⊢
  rw [owcAux_split l1 (c :: l2) []] at hc ⊢
  simp only [owcAux] at hc ⊢
  by_cases hcond : (c.overwrite ||
      (owcAux [] l1).any (fun p => consumes p c)) = true
  · rw [if_pos hcond]
    exact owcAux_consume l2 (c :: owcAux [] l1) c (List.mem_cons_self _ _)
      d hd hcons
  · rw [if_neg hcond] at hc
    exfalso
    rcases owcAux_origin l2 (owcAux [] l1) c.sid hc with h1 | ⟨x, hx, hxs⟩
    · rcases owcAux_origin l1 [] c.sid h1 with h2 | ⟨x, hx, hxs⟩
      · simp [sidMem] at h2
      · exact hn1 (List.mem_map.mpr ⟨x, hx, hxs⟩)
    · exact hn2 (List.mem_map.mpr ⟨x, hx, hxs⟩)

/-- Claim C3: an explicit overwrite puts a stage in the must-execute set
regardless of cache state, and this propagates forward through dependency
edges: every stage in the resulting overwrite closure — in particular every
direct or transitive dependent — is in the must-execute set and does real
work in phase 2, even when its own outputs are cached; no dependent is
silently skipped. -/
theorem c3_overwrite_propagation (tr : List StageCall)
    (hnodup : (tr.map StageCall.sid).Nodup) :
    (∀ c ∈ tr, c.overwrite = true →
        sidMem (overwriteClosure tr) c.sid = true)
  ∧ (∀ l1 c l2, tr = l1 ++ c :: l2 →
        sidMem (overwriteClosure tr) c.sid = true →
        ∀ d ∈ l2, consumes c d = true →
          sidMem (overwriteClosure tr) d.sid = true)
  ∧ (∀ c ∈ tr, sidMem (overwriteClosure tr) c.sid = true →
        c ∈ mustExecuteSet tr ∧
          planAction (overwriteClosure tr) (mustExecuteSet tr) c =
            .execute) := by
  refine ⟨?_, owc_forward tr hnodup, ?_⟩
  · intro c hc how
    exact owcAux_overwrite tr [] c hc how
  · intro c hc hsid
    have hclosed : OwcClosed (overwriteClosure tr) tr :=
      fun l1 c2 l2 heq => owc_forward tr hnodup l1 c2 l2 heq
    have hme : c ∈ mustExecuteSet tr :=
      owc_mem_mustExecute tr hclosed c hc hsid
    exact ⟨hme, planAction_execute_of_owc (sidMem_of_mem hme) hsid⟩

/-- The concrete three-stage trace for the C3 witness: an overwrite is
requested on the first stage, and the downstream stages are fully cached. -/
def trOverwrite : List StageCall :=
  [⟨0, [], ["a"], false, true⟩,
   ⟨1, ["a"], ["b"], true, false⟩,
   ⟨2, ["b"], ["c"], true, false⟩]

/-- Witness for C3 at the spec scenario with overwrite on the first stage:
the cached final stage is still marked for real execution. -/
theorem c3_overwrite_propagation_witness :
    sidMem (overwriteClosure trOverwrite) 2 = true ∧
    (StageCall.mk 2 ["b"] ["c"] true false) ∈ mustExecuteSet trOverwrite ∧
    planAction (overwriteClosure trOverwrite) (mustExecuteSet trOverwrite)
      (StageCall.mk 2 ["b"] ["c"] true false) = .execute :=
  ⟨by decide,
    ((c3_overwrite_propagation trOverwrite (by decide)).2.2
      (StageCall.mk 2 ["b"] ["c"] true false) (by decide) (by decide)).1,
    ((c3_overwrite_propagation trOverwrite (by decide)).2.2
      (StageCall.mk 2 ["b"] ["c"] true false) (by decide) (by decide)).2⟩

/-- Claim C2: phase 2 executes only stages in the must-execute set computed by
walking backward from leaf stages; a stage whose outputs are fully cached and
which is not overwrite-marked is never executed; must-execute membership only
arises for a leaf or for a producer feeding an included consumer whose outputs
are uncached or overwrite-marked (so stages upstream of a cached stage are
neither executed nor included); stages outside the set are skipped with no
cache-hit load at skip time, their cached outputs being loaded lazily exactly
when a downstream executing stage demands them. -/
theorem c2_dag_pruning (tr : List StageCall)
    (hnodup : (tr.map StageCall.sid).Nodup) :
    (∀ i, Event.exec i ∈ phase2Events tr →
        sidMem (mustExecuteSet tr) i = true)
  ∧ (∀ c ∈ tr, c.cached = true →
        sidMem (overwriteClosure tr) c.sid = false →
        Event.exec c.sid ∉ phase2Events tr)
  ∧ (∀ c ∈ mustExecuteSet tr, ∃ l1 l2, tr = l1 ++ c :: l2 ∧
        (isLeaf c l2 = true ∨
          ((mustExecute (overwriteClosure tr) l2).any
              (fun d => consumes c d) = true ∧
            (!c.cached || sidMem (overwriteClosure tr) c.sid) = true)))
  ∧ (∀ c ∈ tr, sidMem (mustExecuteSet tr) c.sid = false →
        Event.hitLoad c.sid ∉ phase2Events tr ∧
          Event.exec c.sid ∉ phase2Events tr)
  ∧ (∀ p i, Event.lazyLoad p i ∈ phase2Events tr →
        ∃ cp cc l1 l2 l3, tr = l1 ++ cp :: l2 ++ cc :: l3 ∧
          cp.sid = p ∧ cc.sid = i ∧ consumes cp cc = true ∧
          planAction (overwriteClosure tr) (mustExecuteSet tr) cp = .skip ∧
          planAction (overwriteClosure tr) (mustExecuteSet tr) cc = .execute)
  ∧ (∀ l1 cp l2 cc l3, tr = l1 ++ cp :: l2 ++ cc :: l3 →
        consumes cp cc = true →
        planAction (overwriteClosure tr) (mustExecuteSet tr) cp = .skip →
        planAction (overwriteClosure tr) (mustExecuteSet tr) cc = .execute →
        Event.lazyLoad cp.sid cc.sid ∈ phase2Events tr) := by
  refine ⟨?_, ?_, ?_, ?_, ?_, ?_⟩
  · -- executions only within the must-execute set
    intro i hmem
    obtain ⟨l1, c, l2, heq, hse⟩ :=
      phase2Aux_mem (overwriteClosure tr) (mustExecuteSet tr) tr []
        (Event.exec i) hmem
    obtain ⟨his, hpa⟩ := stageEvents_exec hse
    have h1 : sidMem (mustExecuteSet tr) c.sid = true :=
      planAction_mem_of_ne_skip
        (fun hx => by rw [hpa] at hx; exact Action.noConfusion hx)
    rw [his]
    exact h1
  · -- a cached stage outside the overwrite closure never executes
    intro c hc hcached howc hmem
    obtain ⟨l1, c2, l2, heq, hse⟩ :=
      phase2Aux_mem (overwriteClosure tr) (mustExecuteSet tr) tr []
        (Event.exec c.sid) hmem
    obtain ⟨his, hpa⟩ := stageEvents_exec hse
    have hc2mem : c2 ∈ tr := by
      rw [heq]
      exact List.mem_append_right _ (List.mem_cons_self _ _)
    have hinj := List.inj_on_of_nodup_map hnodup
    have hceq : c2 = c := hinj hc2mem hc his.symm
    subst hceq
    exact planAction_not_execute_cached hcached howc hpa
  · -- must-execute membership only arises by the backward walk
    intro c hc
    exact mustExecute_sound (overwriteClosure tr) tr c hc
  · -- stages outside the set are skipped entirely, with no load
    intro c _ hnotme
    constructor
    · intro hmem
      obtain ⟨l1, c2, l2, heq, hse⟩ :=
        phase2Aux_mem (overwriteClosure tr) (mustExecuteSet tr) tr []
          (Event.hitLoad c.sid) hmem
      obtain ⟨his, hpa⟩ := stageEvents_hitLoad hse
      have h1 : sidMem (mustExecuteSet tr) c2.sid = true :=
        planAction_mem_of_ne_skip
          (fun hx => by rw [hpa] at hx; exact Action.noConfusion hx)
      rw [← his, hnotme] at h1
      exact Bool.noConfusion h1
    · intro hmem
      obtain ⟨l1, c2, l2, heq, hse⟩ :=
        phase2Aux_mem (overwriteClosure tr) (mustExecuteSet tr) tr []
          (Event.exec c.sid) hmem
      obtain ⟨his, hpa⟩ := stageEvents_exec hse
      have h1 : sidMem (mustExecuteSet tr) c2.sid = true :=
        planAction_mem_of_ne_skip
          (fun hx => by rw [hpa] at hx; exact Action.noConfusion hx)
      rw [← his, hnotme] at h1
      exact Bool.noConfusion h1
  · -- lazy loads arise only from executing consumers demanding skipped
    -- producers
    intro p i hmem
    obtain ⟨l1, cc, l2, heq, hse⟩ :=
      phase2Aux_mem (overwriteClosure tr) (mustExecuteSet tr) tr []
        (Event.lazyLoad p i) hmem
    obtain ⟨his, hpac, q, hq, hqs, hqcons, hqskip⟩ := stageEvents_lazyLoad hse
    rw [List.nil_append] at hq
    obtain ⟨s, t, hqsplit⟩ := List.append_of_mem hq
    refine ⟨q, cc, s, t, l2, ?_, hqs, his.symm, hqcons, hqskip, hpac⟩
    rw [heq, hqsplit, List.append_assoc, List.cons_append]
  · -- the demanded load does happen when the consumer executes
    intro l1 cp l2 cc l3 heq hcons hskip hexec
    have heq2 : tr = (l1 ++ cp :: l2) ++ cc :: l3 := by
      rw [heq]
    unfold phase2Events
    set owc := overwriteClosure tr with howc
    set me := mustExecuteSet tr with hmeq
    rw [heq2, phase2Aux_append owc me (l1 ++ cp :: l2) (cc :: l3) [],
      List.nil_append]
    refine List.mem_append_right _ ?_
    simp only [phase2Aux]
    refine List.mem_append_left _ ?_
    exact stageEvents_lazyLoad_mem
      (List.mem_append_right _ (List.mem_cons_self _ _)) hcons hskip hexec

/-- The concrete three-stage trace for the C2 witness: a linear pipeline whose
middle stage is fully cached, nothing overwrite-marked. -/
def trPruned : List StageCall :=
  [⟨0, [], ["a"], false, false⟩,
   ⟨1, ["a"], ["b"], true, false⟩,
   ⟨2, ["b"], ["c"], false, false⟩]

/-- Witness for C2 at the spec scenario: with the middle stage cached, the
upstream stage and the cached stage are skipped without loads, and the cached
outputs are loaded lazily when the leaf executes and demands them. -/
theorem c2_dag_pruning_witness :
    sidMem (mustExecuteSet trPruned) 0 = false ∧
    sidMem (mustExecuteSet trPruned) 1 = false ∧
    Event.exec 1 ∉ phase2Events trPruned ∧
    Event.lazyLoad 1 2 ∈ phase2Events trPruned :=
  ⟨by decide, by decide,
    (c2_dag_pruning trPruned (by decide)).2.1
      (StageCall.mk 1 ["a"] ["b"] true false) (by decide) (by decide)
      (by decide),
    (c2_dag_pruning trPruned (by decide)).2.2.2.2.2
      [StageCall.mk 0 [] ["a"] false false]
      (StageCall.mk 1 ["a"] ["b"] true false) []
      (StageCall.mk 2 ["b"] ["c"] false false) [] (by decide) (by decide)
      (by decide) (by decide)⟩

end Curifactory
